import Mathlib

/-
Verification of the goini INI-file library (sections.go).

The Go source is shallowly embedded: Go strings become Lean `String`
(operated on through their character lists), Go maps become association
lists with unique keys and replace-in-place update (matching Go map
assignment semantics; Go's randomized map iteration order is modelled by
the association-list order), `container/list` lists of `*Section` become
`List Section`, and the mutation of the active section held by `Parse`
through a pointer becomes an update of the last instance registered under
the active section name (the `*Section` returned by `AddSection` is always
the most recently pushed instance).  Fallible operations return `Except`,
mirroring the Go `(value, error)` pairs.  A Go runtime panic is modelled
by `Option.none` / a dedicated constructor.
-/

set_option autoImplicit false

namespace Goini

/-- Go `map[string]string`, as an association list with unique keys. -/
abbrev SMap := List (String × String)

/-- Lookup in an association list, mirroring Go map indexing (first match;
keys are unique by construction). -/
def lookupA {β : Type} : List (String × β) → String → Option β
  | [], _ => none
  | (k, v) :: rest, key => if k = key then some v else lookupA rest key

/-- Go map assignment `m[k] = v`: replace in place if the key is present,
otherwise append the new entry. -/
def mapInsert (m : SMap) (k v : String) : SMap :=
  match m with
  | [] => [(k, v)]
  | (k', v') :: rest => if k' = k then (k, v) :: rest else (k', v') :: mapInsert rest k v

/-- Drop the characters of `cut` from both ends of a character list:
Go `strings.Trim`. -/
def trimChars (cut : List Char) (l : List Char) : List Char :=
  ((l.dropWhile (cut.contains ·)).reverse.dropWhile (cut.contains ·)).reverse

/-- Go `strings.Trim(s, " ")`. -/
def trimSpaces (s : String) : String := ⟨trimChars [' '] s.data⟩

/-- Go `strings.Trim(s, cutset)` for a general cutset. -/
def trimCut (s : String) (cut : List Char) : String := ⟨trimChars cut s.data⟩

/-- Go `strings.Index(s, string(c))`: index of the first occurrence of the
character `c`, `none` when absent. -/
def indexOfChar (c : Char) : List Char → Option Nat
  | [] => none
  | x :: xs => if x = c then some 0 else (indexOfChar c xs).map (· + 1)

/-- Go `strings.HasPrefix(s, string(c))` for a one-character pattern. -/
def startsWith (c : Char) (s : String) : Bool := s.data.head? = some c

/-- The `Section` struct of sections.go: a name, the option map, and the
insertion-order list of option names (the `sync.RWMutex` field has no
sequential content and is omitted). -/
structure Section where
  name : String
  options : SMap
  orderedOptions : List String
deriving DecidableEq

/-- Model of `Section.Exists`. -/
def Section.existsOpt (s : Section) (option : String) : Bool :=
  (lookupA s.options option).isSome

/-- Model of `Section.ValueOf`: Go map indexing yields the zero value `""` for an
absent key. -/
def Section.valueOf (s : Section) (option : String) : String :=
  (lookupA s.options option).getD ""

/-- Model of `Section.SetValueFor`: overwrite and return the old value. -/
def Section.setValueFor (s : Section) (option value : String) : String × Section :=
  ((lookupA s.options option).getD "", { s with options := mapInsert s.options option value })

/-- Model of `Section.Add`: append the name to `orderedOptions` when new, always set
the value, return the previous value (`""` when new). -/
def Section.add (s : Section) (option value : String) : String × Section :=
  match lookupA s.options option with
  | some oldValue => (oldValue, { s with options := mapInsert s.options option value })
  | none => ("", { s with options := mapInsert s.options option value,
                          orderedOptions := s.orderedOptions ++ [option] })

/-- Model of `Section.OptionNames`. -/
def Section.optionNames (s : Section) : List String := s.orderedOptions

/-- Model of `parseOption` of sections.go: split on the first `=` when present, else
the first `:`, else return the whole line with an empty value. -/
def parseOption (option : String) : String × String :=
  match indexOfChar '=' option.data with
  | some i => (trimSpaces ⟨option.data.take i⟩, trimSpaces ⟨option.data.drop (i + 1)⟩)
  | none =>
    match indexOfChar ':' option.data with
    | some i => (trimSpaces ⟨option.data.take i⟩, trimSpaces ⟨option.data.drop (i + 1)⟩)
    | none => (option, "")

/-- Model of `Section.AddOption`: store the parsed pair in the option map only when
the parsed value is non-empty; `orderedOptions` is never touched. -/
def Section.addOption (s : Section) (option : String) : Section :=
  let p := parseOption option
  if p.2 ≠ "" then { s with options := mapInsert s.options p.1 p.2 } else s

/-- The option-rendering part of `Section.String`: each name of `ordered`
in order, as `key=value\n` when the stored value is non-empty, else
`key\n`. -/
def renderOpts (options : SMap) : List String → String
  | [] => ""
  | opt :: rest =>
    (let value := (lookupA options opt).getD ""
     if value ≠ "" then opt ++ "=" ++ value ++ "\n" else opt ++ "\n") ++ renderOpts options rest

/-- Model of `Section.String`: the `[name]\n` header (omitted for `"global"`)
followed by the options in `orderedOptions` order. -/
def Section.str (s : Section) : String :=
  (if s.name = "global" then "" else "[" ++ s.name ++ "]\n") ++
    renderOpts s.options s.orderedOptions

/-- The `IniFile` struct of sections.go: file path, map from section name
to the list of `Section` instances pushed under that name, and the
first-appearance order of section names. -/
structure IniFile where
  filePath : String
  sections : List (String × List Section)
  orderedSections : List String
deriving DecidableEq

/-- Model of `NewIniFile`. -/
def newIniFile (filePathArg : String) : IniFile :=
  { filePath := filePathArg, sections := [], orderedSections := [] }

/-- Model of `IniFile.AddSection`: create a fresh `Section`, create the per-name
list and register the name on first occurrence, and push the new instance
at the back of the name's list (the Go function returns a pointer to this
last instance). -/
def IniFile.addSection (c : IniFile) (name : String) : IniFile :=
  match lookupA c.sections name with
  | none =>
    { c with sections := c.sections ++ [(name, [⟨name, [], []⟩])],
             orderedSections := c.orderedSections ++ [name] }
  | some _ =>
    { c with sections :=
        c.sections.map (fun p => if p.1 = name then (p.1, p.2 ++ [⟨name, [], []⟩]) else p) }

/-- Apply `f` to the last element of a list (the section the active
pointer of `Parse` refers to). -/
def updateLast (f : Section → Section) : List Section → List Section
  | [] => []
  | [s] => [f s]
  | s :: rest => s :: updateLast f rest

/-- Mutation through the active `*Section` held by `Parse`: the active
section is always the most recently pushed instance under its name. -/
def IniFile.updActive (c : IniFile) (active : String) (f : Section → Section) : IniFile :=
  { c with sections :=
      c.sections.map (fun p => if p.1 = active then (p.1, updateLast f p.2) else p) }

/-- Model of `isSection` of sections.go. -/
def isSection (line : String) : Bool := startsWith '[' line

/-- One iteration of the scanner loop of `Parse`: section-header lines are
trimmed of `" []"` and opened via `AddSection`; every other line (comments
and blank lines included) is forwarded to the active section's
`AddOption`. -/
def parseStep (st : IniFile × String) (line : String) : IniFile × String :=
  let c := st.1
  let active := st.2
  if !(startsWith '#' line || startsWith ';' line) && !line.data.isEmpty then
    if isSection line then
      let name := trimCut line [' ', '[', ']']
      (c.addSection name, name)
    else
      (c.updActive active (fun s => s.addOption line), active)
  else
    (c.updActive active (fun s => s.addOption line), active)

/-- Model of `Parse` of sections.go, on an already-scanned list of input lines (the
file open/scan I/O is the external collaborator; the scanner yields the
newline-stripped lines in order). -/
def parse (filePath : String) (lines : List String) : IniFile :=
  (lines.foldl parseStep ((newIniFile filePath).addSection "global", "global")).1

/-- Model of `IniFile.String`: every name of `orderedSections` in order, each name's
instances in push order, each rendered by `Section.String` and concatenated
with no separator (a stale name without a map entry contributes nothing,
matching the ignored error of `c.Sections(name)`). -/
def IniFile.str (c : IniFile) : String :=
  String.join (c.orderedSections.map (fun name =>
    String.join (((lookupA c.sections name).getD []).map Section.str)))

/-- Model of `IniFile.Section`: the first instance registered under the name, or the
`Unable to find` error. -/
def IniFile.sectionF (c : IniFile) (name : String) : Except String Section :=
  match lookupA c.sections name with
  | some (s :: _) => .ok s
  | _ => .error ("Unable to find " ++ name)

/-- Model of `IniFile.StringValue`: resolve the first section by name, propagate its
error, else return `ValueOf` of the option. -/
def IniFile.stringValue (c : IniFile) (sec opt : String) : Except String String :=
  match c.sectionF sec with
  | .error e => .error e
  | .ok s => .ok (s.valueOf opt)

/-- Model of `IniFile.Sections`: with an empty name, all instances across
`orderedSections` (names missing from the map are skipped by the `ok`
guard); with a name, that name's instances or the `Unable to find`
error. -/
def IniFile.sectionsAll (c : IniFile) (name : String) : Except String (List Section) :=
  if name = "" then
    .ok (c.orderedSections.foldl (fun acc n =>
      match lookupA c.sections n with
      | some lst => acc ++ lst
      | none => acc) [])
  else
    match lookupA c.sections name with
    | some lst => .ok lst
    | none => .error ("Unable to find " ++ name)

/-- Encode an `Except` as a `Sum`, to derive decidable equality. -/
def exceptEncode {ε α : Type} : Except ε α → ε ⊕ α
  | .error e => Sum.inl e
  | .ok a => Sum.inr a

theorem exceptEncode_inj {ε α : Type} (x y : Except ε α)
    (h : exceptEncode x = exceptEncode y) : x = y := by
  cases x <;> cases y <;> simp [exceptEncode] at h <;> simp [h]

instance {ε α : Type} [DecidableEq ε] [DecidableEq α] : DecidableEq (Except ε α) := fun x y =>
  if h : exceptEncode x = exceptEncode y then isTrue (exceptEncode_inj x y h)
  else isFalse (fun hc => h (by rw [hc]))

/-- Abstraction of Go `regexp.MatchString`, an external collaborator: a
valid pattern is its compiled matcher, an invalid pattern (`none`) yields a
compile error for every subject string. -/
abbrev Regex := Option (String → Bool)

/-- Model of `regexp.MatchString(regex, s)`: `(false, err)` for an invalid pattern,
`(f s, nil)` for a valid one. -/
def matchStr (r : Regex) (s : String) : Except Unit Bool :=
  match r with
  | none => .error ()
  | some f => .ok (f s)

/-- The map-range loop of `IniFile.Find`: matched instance lists are
accumulated in iteration order; a match error aborts with no sections. -/
def findGo (r : Regex) : List (String × List Section) → Except Unit (List Section)
  | [] => .ok []
  | x :: rest =>
    match matchStr r x.1 with
    | .ok true =>
      match findGo r rest with
      | .ok acc => .ok (x.2 ++ acc)
      | .error e => .error e
    | .ok false => findGo r rest
    | .error _ => .error ()

/-- Model of `IniFile.Find`. -/
def findSections (c : IniFile) (r : Regex) : Except Unit (List Section) :=
  findGo r c.sections

/-- Result of the ordered-list removal loop of `IniFile.Delete`:
completed, aborted with a match error, or panicked on an out-of-range
slice bound. -/
inductive LoopRes where
  | panicked : LoopRes
  | errored : List String → Nat → LoopRes
  | done : List String → Nat → LoopRes
deriving DecidableEq

/-- The in-place effect of Go `append(s[:i], s[i+1:]...)` on the backing
array `A` when the live slice has length `cur`: positions `i .. cur-2`
receive `A[i+1 .. cur-1]`, position `cur-1` keeps its old value, positions
from `cur` on are untouched. -/
def shiftRemove (A : List String) (i cur : Nat) : List String :=
  A.take i ++ (A.drop (i + 1)).take (cur - i - 1) ++ A.drop (cur - 1)

/-- The `range c.orderedSections` removal loop of `IniFile.Delete`,
faithfully including Go's range semantics: the loop bound and the read
index refer to the slice snapshot taken at loop entry (backing array `A`,
original length as fuel), while each removal shortens the live slice to
`cur` and shifts the backing array, so entries moved into a removed slot
are skipped; a removal at an index `i ≥ cur` evaluates `s[i+1:]` past the
live length and panics. -/
def remAuxE (r : Regex) : Nat → List String → Nat → Nat → LoopRes
  | 0, A, cur, _ => .done A cur
  | fuel + 1, A, cur, i =>
    match matchStr r (A.getD i "") with
    | .ok true =>
      if cur ≤ i then .panicked
      else remAuxE r fuel (shiftRemove A i cur) (cur - 1) (i + 1)
    | .ok false => remAuxE r fuel A cur (i + 1)
    | .error _ => .errored A cur

/-- Model of `IniFile.Delete`: `Find` first; on its error, return the error with the
state unchanged; otherwise delete every matched section's name from the
map, then run the ordered-list removal loop.  `none` models the Go panic;
a mid-loop match error returns the error with the mutations performed so
far kept, exactly as in the source. -/
def deleteByRegex (c : IniFile) (r : Regex) : Option (Except Unit (List Section) × IniFile) :=
  match findSections c r with
  | .error _ => some (.error (), c)
  | .ok secs =>
    let names := secs.map Section.name
    let sections' := c.sections.filter (fun p => !(names.contains p.1))
    match remAuxE r c.orderedSections.length c.orderedSections c.orderedSections.length 0 with
    | .panicked => none
    | .errored A cur =>
      some (.error (), { c with sections := sections', orderedSections := A.take cur })
    | .done A cur =>
      some (.ok secs, { c with sections := sections', orderedSections := A.take cur })

/-- Split a character list at every occurrence of `c` (the pieces do not
contain `c`; `n` separators yield `n+1` pieces). -/
def splitChar (c : Char) : List Char → List (List Char)
  | [] => [[]]
  | x :: xs =>
    match splitChar c xs with
    | [] => [[]]
    | h :: t => if x = c then [] :: h :: t else (x :: h) :: t

/-- The lines a `bufio.Scanner` with `ScanLines` yields for a string: split
at `'\n'`, dropping the final empty piece produced by a trailing newline
(an empty input yields no lines). -/
def scanLines (s : String) : List String :=
  let parts := (splitChar '\n' s.data).map (fun l => (⟨l⟩ : String))
  if parts.getLast? = some "" then parts.dropLast else parts

end Goini


namespace Goini

/-
Supporting lemmas about the embedded map and string operations.
-/

theorem lookupA_mapInsert_self (m : SMap) (k v : String) :
    lookupA (mapInsert m k v) k = some v := by
  induction m with
  | nil => simp [mapInsert, lookupA]
  | cons p rest ih =>
    obtain ⟨a, b⟩ := p
    by_cases h : a = k <;> simp [mapInsert, lookupA, h, ih]

theorem lookupA_mapInsert_ne (m : SMap) (k v k' : String) (h : k' ≠ k) :
    lookupA (mapInsert m k v) k' = lookupA m k' := by
  induction m with
  | nil => simp [mapInsert, lookupA, Ne.symm h]
  | cons p rest ih =>
    obtain ⟨a, b⟩ := p
    by_cases ha : a = k
    · subst ha
      simp [mapInsert, lookupA, Ne.symm h]
    · simp [mapInsert, lookupA, ha, ih]

/-- Statement that `i` is the position of the first occurrence of `c` in `l`: the
claim-level description of Go `strings.Index`. -/
def FirstIdx (c : Char) (l : List Char) (i : Nat) : Prop :=
  l[i]? = some c ∧ ∀ j, j < i → l[j]? ≠ some c

theorem indexOfChar_some (c : Char) (l : List Char) :
    ∀ i, indexOfChar c l = some i → FirstIdx c l i := by
  induction l with
  | nil => intro i h; simp [indexOfChar] at h
  | cons x xs ih =>
    intro i h
    by_cases hx : x = c
    · simp [indexOfChar, hx] at h
      subst h
      exact ⟨by simp [hx], fun j hj => by omega⟩
    · simp [indexOfChar, hx] at h
      obtain ⟨i0, hi0, hi⟩ := h
      obtain ⟨h1, h2⟩ := ih i0 hi0
      subst hi
      refine ⟨by simpa using h1, fun j hj => ?_⟩
      cases j with
      | zero => simpa using hx
      | succ j0 => simpa using h2 j0 (by omega)

theorem indexOfChar_none (c : Char) (l : List Char) (h : indexOfChar c l = none) :
    ∀ j : Nat, l[j]? ≠ some c := by
  induction l with
  | nil => intro j; simp
  | cons x xs ih =>
    by_cases hx : x = c
    · simp [indexOfChar, hx] at h
    · simp [indexOfChar, hx] at h
      intro j
      cases j with
      | zero => simpa using hx
      | succ j0 => simpa using ih h j0

theorem indexOfChar_eq_none (c : Char) (l : List Char) (h : ∀ j : Nat, l[j]? ≠ some c) :
    indexOfChar c l = none := by
  cases hi : indexOfChar c l with
  | none => rfl
  | some i => exact absurd (indexOfChar_some c l i hi).1 (h i)

theorem firstIdx_indexOfChar (c : Char) (l : List Char) (i : Nat) (h : FirstIdx c l i) :
    indexOfChar c l = some i := by
  cases hi : indexOfChar c l with
  | none => exact absurd h.1 (indexOfChar_none c l hi i)
  | some i0 =>
    have h0 := indexOfChar_some c l i0 hi
    rcases Nat.lt_trichotomy i i0 with hlt | heq | hgt
    · exact absurd h.1 (h0.2 i hlt)
    · rw [heq]
    · exact absurd h0.1 (h.2 i0 hgt)

theorem renderOpts_congr (m1 m2 : SMap) (ordered : List String)
    (h : ∀ o, o ∈ ordered → lookupA m1 o = lookupA m2 o) :
    renderOpts m1 ordered = renderOpts m2 ordered := by
  induction ordered with
  | nil => rfl
  | cons o rest ih =>
    unfold renderOpts
    rw [h o (by simp), ih (fun o' ho' => h o' (by simp [ho']))]

theorem addOption_eq (s : Section) (line : String) :
    s.addOption line =
      if (parseOption line).2 ≠ "" then
        { s with options := mapInsert s.options (parseOption line).1 (parseOption line).2 }
      else s := rfl

/-
Claim theorems.
-/

/-- C3: for every raw line, `AddOption` splits on the first `=` when one
is present, else on the first `:`, trimming surrounding spaces from key
and value; with no delimiter the parsed value is empty; and an entry is
stored in the option map if and only if the parsed value is non-empty, so
bare-key, delimiter-less and delimiter-less comment lines leave the
section unchanged. -/
theorem addOption_spec (s : Section) (line : String) :
    ((parseOption line).2 ≠ "" →
      (s.addOption line).options =
        mapInsert s.options (parseOption line).1 (parseOption line).2 ∧
      lookupA (s.addOption line).options (parseOption line).1 = some (parseOption line).2) ∧
    ((parseOption line).2 = "" → s.addOption line = s) ∧
    (∀ i, FirstIdx '=' line.data i →
      (parseOption line).1 = trimSpaces ⟨line.data.take i⟩ ∧
      (parseOption line).2 = trimSpaces ⟨line.data.drop (i + 1)⟩) ∧
    ((∀ j : Nat, line.data[j]? ≠ some '=') → ∀ i, FirstIdx ':' line.data i →
      (parseOption line).1 = trimSpaces ⟨line.data.take i⟩ ∧
      (parseOption line).2 = trimSpaces ⟨line.data.drop (i + 1)⟩) ∧
    ((∀ j : Nat, line.data[j]? ≠ some '=') → (∀ j : Nat, line.data[j]? ≠ some ':') →
      parseOption line = (line, "")) := by
  refine ⟨fun hv => ?_, fun hv => ?_, fun i hi => ?_, fun hne i hi => ?_, fun hne hnc => ?_⟩
  · rw [addOption_eq, if_pos hv]
    exact ⟨rfl, lookupA_mapInsert_self s.options _ _⟩
  · rw [addOption_eq, if_neg (by simp [hv])]
  · have h := firstIdx_indexOfChar '=' line.data i hi
    simp [parseOption, h]
  · have h0 := indexOfChar_eq_none '=' line.data hne
    have h := firstIdx_indexOfChar ':' line.data i hi
    simp [parseOption, h0, h]
  · have h0 := indexOfChar_eq_none '=' line.data hne
    have h1 := indexOfChar_eq_none ':' line.data hnc
    simp [parseOption, h0, h1]

/-- Witness for C3: the line `a = b` parses to key `a`, value `b`, both
trimmed, and is stored. -/
theorem addOption_spec_witness :
    (parseOption "a = b").2 ≠ "" ∧
    (Section.addOption ⟨"s", [], []⟩ "a = b").options =
      mapInsert ([] : SMap) (parseOption "a = b").1 (parseOption "a = b").2 :=
  ⟨by decide, ((addOption_spec ⟨"s", [], []⟩ "a = b").1 (by decide)).1⟩

/-- C6: `Add` with a new name appends it to the order sequence and returns
the empty string; with a present name it overwrites the value, leaves the
order sequence unchanged and returns the previous value; the stored value
is always the new one, so the second of two identical `Add (k, v)` calls
returns `v` and leaves `OptionNames` unchanged. -/
theorem add_spec (s : Section) (k v : String) :
    (lookupA s.options k = none →
      (s.add k v).1 = "" ∧ (s.add k v).2.orderedOptions = s.orderedOptions ++ [k]) ∧
    (∀ old, lookupA s.options k = some old →
      (s.add k v).1 = old ∧ (s.add k v).2.orderedOptions = s.orderedOptions) ∧
    lookupA (s.add k v).2.options k = some v ∧
    ((s.add k v).2.add k v).1 = v ∧
    ((s.add k v).2.add k v).2.optionNames = (s.add k v).2.optionNames := by
  have hopts : (s.add k v).2.options = mapInsert s.options k v := by
    unfold Section.add
    cases h : lookupA s.options k <;> rfl
  have hlk : lookupA (s.add k v).2.options k = some v := by
    rw [hopts]; exact lookupA_mapInsert_self s.options k v
  have h2 : ∀ t : Section, lookupA t.options k = some v →
      t.add k v = (v, { t with options := mapInsert t.options k v }) := by
    intro t ht
    unfold Section.add
    rw [ht]
  refine ⟨fun h => ?_, fun old h => ?_, hlk, by rw [h2 _ hlk], by rw [h2 _ hlk]; rfl⟩
  · unfold Section.add
    rw [h]
    exact ⟨rfl, rfl⟩
  · unfold Section.add
    rw [h]
    exact ⟨rfl, rfl⟩

/-- Witness for C6: adding a fresh key to an empty section registers it and
returns the empty string. -/
theorem add_spec_witness :
    (Section.add ⟨"s", [], []⟩ "k" "v").1 = "" ∧
    (Section.add ⟨"s", [], []⟩ "k" "v").2.orderedOptions = [] ++ ["k"] :=
  (add_spec ⟨"s", [], []⟩ "k" "v").1 rfl

/-- C7: `SetValueFor` returns the previous value (empty when the name was
absent), sets the value so the option becomes visible to `Exists` and
`ValueOf`, and leaves the option-order sequence completely unchanged; for
an absent name the option is therefore not added to `OptionNames`, unlike
`Add`, which appends absent names. -/
theorem setValueFor_spec (s : Section) (o v : String) :
    (s.setValueFor o v).1 = (lookupA s.options o).getD "" ∧
    (s.setValueFor o v).2.orderedOptions = s.orderedOptions ∧
    (s.setValueFor o v).2.optionNames = s.optionNames ∧
    (s.setValueFor o v).2.existsOpt o = true ∧
    (s.setValueFor o v).2.valueOf o = v ∧
    (lookupA s.options o = none →
      (s.setValueFor o v).1 = "" ∧
      (o ∉ s.orderedOptions → o ∉ (s.setValueFor o v).2.optionNames) ∧
      (s.add o v).2.optionNames = s.optionNames ++ [o]) := by
  refine ⟨rfl, rfl, rfl, ?_, ?_, fun h => ⟨?_, fun ho => ho, ?_⟩⟩
  · simp [Section.setValueFor, Section.existsOpt, lookupA_mapInsert_self]
  · simp [Section.setValueFor, Section.valueOf, lookupA_mapInsert_self]
  · simp [Section.setValueFor, h]
  · unfold Section.add
    rw [h]
    rfl

/-- Witness for C7: `SetValueFor "foo" "baz"` on a section where `foo` is
absent returns the empty string, makes the option visible, and does not
register `foo` in the order sequence. -/
theorem setValueFor_spec_witness :
    (Section.setValueFor ⟨"s", [], []⟩ "foo" "baz").1 = "" ∧
    (Section.setValueFor ⟨"s", [], []⟩ "foo" "baz").2.existsOpt "foo" = true ∧
    (Section.setValueFor ⟨"s", [], []⟩ "foo" "baz").2.valueOf "foo" = "baz" ∧
    (Section.setValueFor ⟨"s", [], []⟩ "foo" "baz").2.optionNames = [] := by
  have h := setValueFor_spec ⟨"s", [], []⟩ "foo" "baz"
  exact ⟨(h.2.2.2.2.2 rfl).1, h.2.2.2.1, h.2.2.2.2.1, h.2.2.1⟩


/-- C8: `Section(name)` returns the first instance registered under the
name, fails with the `Unable to find` error exactly when no section
instance with that name exists, and `StringValue` resolves that first
instance's option value, propagating the error. -/
theorem section_spec (c : IniFile) (name : String) :
    (∀ s rest, lookupA c.sections name = some (s :: rest) → c.sectionF name = .ok s) ∧
    (c.sectionF name = .error ("Unable to find " ++ name) ↔
      (lookupA c.sections name).getD [] = []) ∧
    (∀ opt s, c.sectionF name = .ok s → c.stringValue name opt = .ok (s.valueOf opt)) ∧
    (∀ opt e, c.sectionF name = .error e → c.stringValue name opt = .error e) := by
  refine ⟨fun s rest h => ?_, ?_, fun opt s h => ?_, fun opt e h => ?_⟩
  · unfold IniFile.sectionF
    rw [h]
  · unfold IniFile.sectionF
    cases h : lookupA c.sections name with
    | none => simp
    | some l =>
      cases l with
      | nil => simp
      | cons s rest => simp
  · unfold IniFile.stringValue
    rw [h]
  · unfold IniFile.stringValue
    rw [h]

/-- Witness for C8: on a configuration with one section `sec`, lookup of
`sec` yields its (sole and first) instance and `StringValue` its option
value, while lookup of an absent name fails with the error. -/
theorem section_spec_witness :
    ((newIniFile "w").addSection "sec").sectionF "sec" = Except.ok ⟨"sec", [], []⟩ ∧
    ((newIniFile "w").addSection "sec").stringValue "sec" "x" = Except.ok "" ∧
    ((newIniFile "w").addSection "sec").sectionF "nope" =
      Except.error ("Unable to find " ++ "nope") := by
  have h := section_spec ((newIniFile "w").addSection "sec") "sec"
  have h2 := section_spec ((newIniFile "w").addSection "sec") "nope"
  have hs : ((newIniFile "w").addSection "sec").sectionF "sec" = Except.ok ⟨"sec", [], []⟩ :=
    h.1 ⟨"sec", [], []⟩ [] (by decide)
  exact ⟨hs, h.2.2.1 "x" ⟨"sec", [], []⟩ hs, h2.2.1.mpr (by decide)⟩

/-- C9 counterexample: on the fully empty configuration (empty mapping,
empty ordered name sequence), an invalid regular expression produces no
error at all: `Find` returns success with no sections, and `Delete`
returns success, no sections, and the unchanged configuration, because
neither scan ever evaluates the pattern. -/
theorem find_delete_invalid_empty :
    findSections (newIniFile "e") none = Except.ok [] ∧
    deleteByRegex (newIniFile "e") none = some (Except.ok [], newIniFile "e") :=
  ⟨rfl, rfl⟩

/-- On an invalid pattern the ordered-name removal loop of `Delete` aborts
with an error at its first iteration, whatever the name read there, with no
removal performed. -/
theorem remAuxE_invalid (A : List String) (fuel cur i : Nat) :
    remAuxE none (fuel + 1) A cur i = .errored A cur := by
  unfold remAuxE
  rfl

/-- C9 amended: for an invalid regular expression, `Find` returns an error
and no sections exactly when the section mapping is non-empty, and returns
success with no sections on an empty mapping; `Delete` returns an error,
no sections, and the configuration unchanged whenever the mapping is
non-empty or the ordered name sequence is non-empty (its ordered-name loop
evaluates the pattern against every listed name, stale ones included), and
returns success with no sections only when both are empty. -/
theorem find_delete_invalid_regex (c : IniFile) :
    (c.sections ≠ [] →
      findSections c none = Except.error () ∧
      deleteByRegex c none = some (Except.error (), c)) ∧
    (c.sections = [] → findSections c none = Except.ok []) ∧
    (c.sections = [] → c.orderedSections ≠ [] →
      deleteByRegex c none = some (Except.error (), c)) ∧
    (c.sections = [] → c.orderedSections = [] →
      deleteByRegex c none = some (Except.ok [], c)) := by
  obtain ⟨fp, secs, ord⟩ := c
  refine ⟨fun h => ?_, fun h => ?_, fun h ho => ?_, fun h ho => ?_⟩
  · cases secs with
    | nil => exact absurd rfl h
    | cons p ps =>
      have h1 : findSections ⟨fp, p :: ps, ord⟩ none = Except.error () := rfl
      refine ⟨h1, ?_⟩
      unfold deleteByRegex
      rw [h1]
  · cases secs with
    | nil => rfl
    | cons p ps => exact absurd h (List.cons_ne_nil p ps)
  · cases secs with
    | cons p ps => exact absurd h (List.cons_ne_nil p ps)
    | nil =>
      cases ord with
      | nil => exact absurd rfl ho
      | cons x rest =>
        have h2 : deleteByRegex ⟨fp, [], x :: rest⟩ none =
            some (Except.error (),
              ⟨fp, [], (x :: rest).take (x :: rest).length⟩) := by
          unfold deleteByRegex
          rw [show findSections ⟨fp, [], x :: rest⟩ none = Except.ok [] from rfl]
          rw [show (x :: rest).length = rest.length + 1 from rfl]
          rw [remAuxE_invalid]
          rfl
        rw [h2, List.take_length]
  · cases secs with
    | cons p ps => exact absurd h (List.cons_ne_nil p ps)
    | nil =>
      cases ord with
      | cons x rest => exact absurd ho (List.cons_ne_nil x rest)
      | nil => rfl

/-- Witness for C9: one application per case — a configuration with the
single section `a` (non-empty mapping), the reachable stale state with an
empty mapping but `db-2` left in the ordered name sequence, and the fully
empty configuration. -/
theorem find_delete_invalid_regex_witness :
    (findSections ((newIniFile "w").addSection "a") none = Except.error () ∧
      deleteByRegex ((newIniFile "w").addSection "a") none =
        some (Except.error (), (newIniFile "w").addSection "a")) ∧
    deleteByRegex ⟨"t", [], ["db-2"]⟩ none =
      some (Except.error (), (⟨"t", [], ["db-2"]⟩ : IniFile)) ∧
    deleteByRegex (newIniFile "v") none = some (Except.ok [], newIniFile "v") :=
  ⟨(find_delete_invalid_regex ((newIniFile "w").addSection "a")).1 (by decide),
    (find_delete_invalid_regex ⟨"t", [], ["db-2"]⟩).2.2.1 rfl (by decide),
    (find_delete_invalid_regex (newIniFile "v")).2.2.2 rfl rfl⟩

/-- C10: `AddOption` never appends to the option-order sequence; an option
it stores is reported by `Exists` and returned by `ValueOf` but, when its
key was not already registered, its name does not appear in `OptionNames`
and the `String` output is unchanged; only `Add` registers a new name in
the order sequence. -/
theorem addOption_frame (s : Section) (line : String) :
    (s.addOption line).orderedOptions = s.orderedOptions ∧
    (s.addOption line).optionNames = s.optionNames ∧
    ((parseOption line).2 ≠ "" →
      (s.addOption line).existsOpt (parseOption line).1 = true ∧
      (s.addOption line).valueOf (parseOption line).1 = (parseOption line).2) ∧
    ((parseOption line).1 ∉ s.orderedOptions →
      (parseOption line).1 ∉ (s.addOption line).optionNames ∧
      (s.addOption line).str = s.str) ∧
    (∀ o w, lookupA s.options o = none → (s.add o w).2.optionNames = s.optionNames ++ [o]) := by
  by_cases hv : (parseOption line).2 = ""
  · rw [addOption_eq, if_neg (by simp [hv])]
    refine ⟨rfl, rfl, fun h => absurd hv h, fun h => ⟨h, rfl⟩, fun o w h => ?_⟩
    unfold Section.add
    rw [h]
    rfl
  · rw [addOption_eq, if_pos hv]
    refine ⟨rfl, rfl, fun _ => ⟨?_, ?_⟩, fun h => ⟨h, ?_⟩, fun o w h => ?_⟩
    · simp [Section.existsOpt, lookupA_mapInsert_self]
    · simp [Section.valueOf, lookupA_mapInsert_self]
    · unfold Section.str
      show _ ++ renderOpts (mapInsert s.options (parseOption line).1 (parseOption line).2)
          s.orderedOptions = _
      rw [renderOpts_congr (mapInsert s.options (parseOption line).1 (parseOption line).2)
        s.options s.orderedOptions
        (fun o ho => lookupA_mapInsert_ne s.options (parseOption line).1 (parseOption line).2 o
          (fun he => h (he ▸ ho)))]
    · unfold Section.add
      rw [h]
      rfl

/-- Witness for C10: storing `foo=bar` through `AddOption` into a section
whose order sequence is `[x]` leaves the order sequence and the rendered
text unchanged while the option becomes visible. -/
theorem addOption_frame_witness :
    (Section.addOption ⟨"s", [], ["x"]⟩ "foo=bar").orderedOptions = ["x"] ∧
    (Section.addOption ⟨"s", [], ["x"]⟩ "foo=bar").existsOpt "foo" = true ∧
    (Section.addOption ⟨"s", [], ["x"]⟩ "foo=bar").valueOf "foo" = "bar" ∧
    (Section.addOption ⟨"s", [], ["x"]⟩ "foo=bar").str = Section.str ⟨"s", [], ["x"]⟩ := by
  have h := addOption_frame ⟨"s", [], ["x"]⟩ "foo=bar"
  exact ⟨h.1, (h.2.2.1 (by decide)).1, (h.2.2.1 (by decide)).2, (h.2.2.2.1 (by decide)).2⟩

/-- The configuration parsed from the single line `foo=bar`. -/
def cRound : IniFile := parse "f" ["foo=bar"]

/-- C1 evaluated at the failing input `foo=bar`: the parsed configuration
holds `foo → bar` in the global section's option map, yet serializes to
the empty string, so the re-parse of the serialization has lost the
option — the round trip does not preserve option names and values. -/
theorem roundtrip_loses_options :
    cRound.sections = [("global", [⟨"global", [("foo", "bar")], []⟩])] ∧
    cRound.stringValue "global" "foo" = Except.ok "bar" ∧
    cRound.str = "" ∧
    parse "f" (scanLines cRound.str) =
      ⟨"f", [("global", [⟨"global", [], []⟩])], ["global"]⟩ := by
  refine ⟨by decide, by decide, by decide, by decide⟩

/-- The configuration parsed from the spec's four-line concrete
scenario. -/
def cScenario : IniFile := parse "f" ["foo=bar", "[section]", "; a comment", "baz = qux"]

/-- C2 evaluated: the parse structure is as claimed (`foo → bar` in
`global`, `baz → qux` in `section`, comment dropped), but `String()`
returns `[section]\n` — the parsed options never enter the order
sequence, so the serializer omits them — not the claimed text. -/
theorem scenario_eval :
    cScenario =
      ⟨"f", [("global", [⟨"global", [("foo", "bar")], []⟩]),
             ("section", [⟨"section", [("baz", "qux")], []⟩])], ["global", "section"]⟩ ∧
    cScenario.stringValue "global" "foo" = Except.ok "bar" ∧
    cScenario.stringValue "section" "baz" = Except.ok "qux" ∧
    cScenario.str = "[section]\n" ∧
    cScenario.str ≠ "foo = bar\n[section]\nbaz = qux\n" := by
  refine ⟨by decide, by decide, by decide, by decide, by decide⟩

/-- Character-list prefix test, used to model the matcher of the regular
expression `^db-`. -/
def listPre : List Char → List Char → Bool
  | [], _ => true
  | _ :: _, [] => false
  | a :: as, b :: bs => if a = b then listPre as bs else false

/-- The compiled matcher of the pattern `^db-`. -/
def dbRegex : Regex := some (fun s => listPre "db-".data s.data)

/-- A configuration with sections `db-1`, `db-2`, `cache-1`. -/
def cDb : IniFile :=
  (((newIniFile "t").addSection "db-1").addSection "db-2").addSection "cache-1"

/-- The state `Delete("^db-")` actually leaves behind on `cDb`. -/
def cDbAfter : IniFile :=
  ⟨"t", [("cache-1", [⟨"cache-1", [], []⟩])], ["db-2", "cache-1"]⟩

/-- C4 evaluated at the failing operation sequence: after `Delete("^db-")`
on sections `db-1`, `db-2`, `cache-1`, the name `db-2` is still present in
the ordered section-name sequence although it has no entry in the
name-to-instances mapping — the removal loop mutates the slice it is
ranging over and skips the entry shifted into the removed slot. -/
theorem delete_breaks_invariant :
    deleteByRegex cDb dbRegex =
      some (Except.ok [⟨"db-1", [], []⟩, ⟨"db-2", [], []⟩], cDbAfter) ∧
    "db-2" ∈ cDbAfter.orderedSections ∧
    lookupA cDbAfter.sections "db-2" = none := by
  refine ⟨by decide, by decide, by decide⟩

/-- C5 evaluated: `Delete("^db-")` on `cDb` does return exactly the two
`db-*` sections, removes both from the mapping, and `Sections("")`
afterwards yields only `cache-1`; but the matched name `db-2` is not
removed from the ordered section-name sequence, contradicting the claim
that every matched name is removed from both structures. -/
theorem delete_regex_eval :
    deleteByRegex cDb dbRegex =
      some (Except.ok [⟨"db-1", [], []⟩, ⟨"db-2", [], []⟩], cDbAfter) ∧
    cDbAfter.sectionsAll "" = Except.ok [⟨"cache-1", [], []⟩] ∧
    cDbAfter.orderedSections ≠ ["cache-1"] := by
  refine ⟨by decide, by decide, by decide⟩

end Goini
